import Mathlib

/-!
# Verification of the mp4ameta metadata rewriter against its specification

This file shallowly embeds the parts of the `mp4ameta` Rust crate that the
checked claims are about:

* the chunk-offset (`stco`/`co64`) adjustment and the ancestor-size patching
  performed by `write_tag_to` (`src/atom/mod.rs`),
* the `co64` atom parser and the `co64`/`hdlr` writers
  (`src/atom/co64.rs`, `src/atom/hdlr.rs`),
* the template-driven child-parsing loop (`src/atom.rs`),
* the moov search loops of `read_tag_from` and `write_tag_to`
  (`src/atom/mod.rs`),
* `Content::take_data` (`src/core/content.rs`) and the generated flag
  accessors (`mp4ameta_proc/src/lib.rs`).

Machine integers are modelled as `Nat`/`Int` with explicit wrapping where the
Rust code casts (`as u32`, `as i64`, …).  File writes are modelled as lists of
`(position, bytes)` pairs, and readers as a byte list plus a cursor.
-/

namespace Mp4ameta

/-! ## Big-endian byte codecs and machine-integer casts -/

/-- Big-endian encoding of the low 32 bits of `n` (what `u32::to_be_bytes`
emits after an `as u32` cast). -/
def be32 (n : ℕ) : List ℕ :=
  [n / 2 ^ 24 % 256, n / 2 ^ 16 % 256, n / 2 ^ 8 % 256, n % 256]

/-- Big-endian encoding of the low 64 bits of `n`. -/
def be64 (n : ℕ) : List ℕ :=
  [n / 2 ^ 56 % 256, n / 2 ^ 48 % 256, n / 2 ^ 40 % 256, n / 2 ^ 32 % 256,
   n / 2 ^ 24 % 256, n / 2 ^ 16 % 256, n / 2 ^ 8 % 256, n % 256]

/-- Big-endian decoding of a byte list. -/
def readBe (l : List ℕ) : ℕ :=
  l.foldl (fun acc b => acc * 256 + b) 0

/-- Reinterpretation of a `u64` value as an `i64` (Rust `as i64`). -/
def i64OfU64 (x : ℕ) : ℤ :=
  if x < 2 ^ 63 then (x : ℤ) else (x : ℤ) - 2 ^ 64

/-- Wrapping (two's complement) normalization of an `i64` computation. -/
def wrapI64 (x : ℤ) : ℤ :=
  (x + 2 ^ 63) % 2 ^ 64 - 2 ^ 63

/-- Truncating cast of an `i64` value to `u32` (Rust `as u32`): the low
32 bits of the two's complement representation. -/
def u32OfI64 (x : ℤ) : ℕ :=
  (x % 2 ^ 32).toNat

/-- Truncating cast of an `i64` value to `u64` (Rust `as u64`). -/
def u64OfI64 (x : ℤ) : ℕ :=
  (x % 2 ^ 64).toNat

/-! ## Chunk-offset adjustment (`write_tag_to`, src/atom/mod.rs lines 316-346)

The adjustment step re-parses every `stco`/`co64` table found below a `trak`
atom and writes every entry back shifted by `len_diff`.  It is guarded only by
`mdat_pos > moov.pos()`.  We model the step as the list of `(position, bytes)`
writes it performs. -/

/-- The new `stco` entry value: `(*co as i64 + len_diff) as u32`
(src/atom/mod.rs line 329). -/
def stcoNewOffset (lenDiff : ℤ) (co : ℕ) : ℕ :=
  u32OfI64 (wrapI64 ((co : ℤ) + lenDiff))

/-- The new `co64` entry value: `(*co as i64 + len_diff) as u64`
(src/atom/mod.rs line 340). -/
def co64NewOffset (lenDiff : ℤ) (co : ℕ) : ℕ :=
  u64OfI64 (wrapI64 (i64OfU64 co + lenDiff))

/-- The parsed form of an `stco` table: the absolute position of the entry
table and the 32-bit entries. -/
structure StcoTable where
  tablePos : ℕ
  offsets : List ℕ
  deriving Repr, DecidableEq

/-- The parsed form of a `co64` table. -/
structure Co64Table where
  tablePos : ℕ
  offsets : List ℕ
  deriving Repr, DecidableEq

/-- The chunk-offset tables found below one `stbl` atom. -/
structure StblBounds where
  stco : Option StcoTable
  co64 : Option Co64Table
  deriving Repr, DecidableEq

/-- The `minf` level of the bounds tree (src/atom/mod.rs line 319). -/
structure MinfBounds where
  stbl : Option StblBounds
  deriving Repr, DecidableEq

/-- The `mdia` level of the bounds tree. -/
structure MdiaBounds where
  minf : Option MinfBounds
  deriving Repr, DecidableEq

/-- The `trak` level of the bounds tree. -/
structure TrakBounds where
  mdia : Option MdiaBounds
  deriving Repr, DecidableEq

/-- The writes produced for one `stco` table: the writer seeks to
`chunk_offset.table_pos` and emits each shifted entry as 4 big-endian bytes
(src/atom/mod.rs lines 327-331). -/
def stcoWrites (lenDiff : ℤ) (a : StcoTable) : List (ℕ × List ℕ) :=
  a.offsets.enum.map fun p => (a.tablePos + 4 * p.1, be32 (stcoNewOffset lenDiff p.2))

/-- The writes produced for one `co64` table (src/atom/mod.rs lines 338-342). -/
def co64Writes (lenDiff : ℤ) (a : Co64Table) : List (ℕ × List ℕ) :=
  a.offsets.enum.map fun p => (a.tablePos + 8 * p.1, be64 (co64NewOffset lenDiff p.2))

/-- The writes produced for one `stbl` atom: first the `stco` table (if any),
then the `co64` table (if any) (src/atom/mod.rs lines 322-345). -/
def stblWrites (lenDiff : ℤ) (s : StblBounds) : List (ℕ × List ℕ) :=
  (match s.stco with
   | some a => stcoWrites lenDiff a
   | none => []) ++
  (match s.co64 with
   | some a => co64Writes lenDiff a
   | none => [])

/-- The `filter_map` chain selecting the `stbl` bounds of each `trak`
(src/atom/mod.rs lines 318-320). -/
def stblAtoms (traks : List TrakBounds) : List StblBounds :=
  traks.filterMap fun a => a.mdia.bind fun m => m.minf.bind fun m => m.stbl

/-- The chunk-offset adjustment step of `write_tag_to`
(src/atom/mod.rs lines 316-346): guarded only by `mdat_pos > moov.pos()`. -/
def chunkOffsetWrites (mdatPos moovPos : ℕ) (lenDiff : ℤ)
    (traks : List TrakBounds) : List (ℕ × List ℕ) :=
  if moovPos < mdatPos then
    (stblAtoms traks).flatMap (stblWrites lenDiff)
  else []

/-- `mdat.map_or(0, |a| a.pos())` (src/atom/mod.rs line 239). -/
def mdatPosOf (mdat : Option ℕ) : ℕ :=
  mdat.getD 0

/-! ## Ancestor size patching (`write_tag_to`, src/atom/mod.rs lines 348-359) -/

/-- The on-disk bounds of an existing ancestor atom whose size field is
patched: its position, its old total length `a.len()`, and whether it uses the
16-byte extended head (`a.ext()`). -/
structure AtomBounds where
  pos : ℕ
  len : ℕ
  ext : Bool
  deriving Repr, DecidableEq

/-- The writes patching one ancestor's size field
(src/atom/mod.rs lines 350-358): `new_len = a.len() as i64 + len_diff`; an
extended-head atom gets size field `1` and the 64-bit `new_len as u64` eight
bytes in; otherwise the 32-bit `new_len as u32` is written. -/
def updateAtomWrites (lenDiff : ℤ) (a : AtomBounds) : List (ℕ × List ℕ) :=
  let newLen : ℤ := wrapI64 (i64OfU64 a.len + lenDiff)
  if a.ext then
    [(a.pos, be32 1), (a.pos + 8, be64 (u64OfI64 newLen))]
  else
    [(a.pos, be32 (u32OfI64 newLen))]

/-- The size-patch step of `write_tag_to` (src/atom/mod.rs lines 349-359):
`update_atoms` is traversed in reverse. -/
def sizePatchWrites (lenDiff : ℤ) (updateAtoms : List AtomBounds) : List (ℕ × List ℕ) :=
  updateAtoms.reverse.flatMap (updateAtomWrites lenDiff)

/-! ## Atom sizes and serialization (src/atom/co64.rs, src/atom/hdlr.rs)

`Size` and the head codec live in `src/atom/head.rs`, which is not part of
the provided sources; they are modelled from the spec (sections 3 and 4.1). -/

/-- Modelled from the spec: `head.rs` is absent from the sources.  A `Size`
remembers the content length and whether the extended 64-bit size form is
needed; `len() = head_len + content_len` with `head_len = 16` for the
extended form and `8` otherwise. -/
structure Size where
  ext : Bool
  contentLen : ℕ
  deriving Repr, DecidableEq

/-- The head length implied by a size: 16 bytes for the extended form,
8 bytes otherwise. -/
def Size.headLen (s : Size) : ℕ :=
  if s.ext then 16 else 8

/-- The total serialized length of an atom: head plus content. -/
def Size.len (s : Size) : ℕ :=
  s.headLen + s.contentLen

/-- Modelled from the spec: `Size::from(content_len)` chooses the extended
form exactly when the total length with a short head would not fit in the
32-bit size field. -/
def Size.ofContentLen (contentLen : ℕ) : Size :=
  ⟨4294967295 < 8 + contentLen, contentLen⟩

/-- Modelled from the spec (section 4.1): `write_head` emits the 4-byte size
and the 4-byte FOURCC, with size field `1` followed by the 64-bit extended
size after the FOURCC in the extended form. -/
def writeHead (s : Size) (fourcc : List ℕ) : List ℕ :=
  if s.ext then be32 1 ++ fourcc ++ be64 s.len else be32 s.len ++ fourcc

/-- Modelled from the spec (section 4.1): a full-box head is a 1-byte version
and 3 flag bytes. -/
def writeFullHead (version : ℕ) (flags : List ℕ) : List ℕ :=
  [version % 256] ++ flags

/-- The FOURCC bytes of `co64`. -/
def co64Fourcc : List ℕ := [0x63, 0x6f, 0x36, 0x34]

/-- The FOURCC bytes of `hdlr`. -/
def hdlrFourcc : List ℕ := [0x68, 0x64, 0x6c, 0x72]

/-- `Co64::size` (src/atom/co64.rs lines 61-64): content is
`8 + 8 * offsets.len()` bytes. -/
def co64Size (offsets : List ℕ) : Size :=
  Size.ofContentLen (8 + 8 * offsets.length)

/-- `Co64::write_atom` (src/atom/co64.rs lines 49-59): head, full-box head
with version 0 and zero flags, the 32-bit entry count, then each offset as a
64-bit big-endian value. -/
def co64WriteBytes (offsets : List ℕ) : List ℕ :=
  writeHead (co64Size offsets) co64Fourcc ++ writeFullHead 0 [0, 0, 0] ++
    be32 offsets.length ++ offsets.flatMap be64

/-- `Hdlr::size` (src/atom/hdlr.rs lines 37-39): content is the raw payload. -/
def hdlrSize (payload : List ℕ) : Size :=
  Size.ofContentLen payload.length

/-- `Hdlr::write_atom` (src/atom/hdlr.rs lines 31-35): head followed by the
raw payload bytes. -/
def hdlrWriteBytes (payload : List ℕ) : List ℕ :=
  writeHead (hdlrSize payload) hdlrFourcc ++ payload

/-! ## Readers

A seekable byte stream is a byte list plus a cursor.  Reading past the end is
the `Io` error; seeking past the end is allowed, as it is for files. -/

/-- The error kinds of the crate (src/lib.rs is not under the sources; the
constructors follow spec section 7).  `fuel` is an artifact of the embedding:
it marks recursion-depth exhaustion of a fueled loop and corresponds to no
crate error. -/
inductive ErrorKind where
  | io
  | parsing
  | atomNotFound (fourcc : List ℕ)
  | unknownVersion (version : ℕ)
  | invalidFiletype
  | noTag
  | fuel
  deriving Repr, DecidableEq

/-- A seekable reader over a byte stream. -/
structure Reader where
  data : List ℕ
  pos : ℕ
  deriving Repr, DecidableEq

/-- Reading `n` bytes; fails with `Io` when fewer remain (`read_exact`). -/
def readBytes (r : Reader) (n : ℕ) : Except ErrorKind (List ℕ × Reader) :=
  if r.pos + n ≤ r.data.length then
    .ok ((r.data.drop r.pos).take n, ⟨r.data, r.pos + n⟩)
  else .error .io

/-- A forward seek by `n` bytes (`SeekFrom::Current(n)` with `n ≥ 0`). -/
def Reader.seek (r : Reader) (n : ℕ) : Reader :=
  ⟨r.data, r.pos + n⟩

/-- `read_be_u32`: four big-endian bytes. -/
def readBeU32 (r : Reader) : Except ErrorKind (ℕ × Reader) :=
  match readBytes r 4 with
  | .ok (b, r) => .ok (readBe b, r)
  | .error e => .error e

/-- `read_be_u64`: eight big-endian bytes. -/
def readBeU64 (r : Reader) : Except ErrorKind (ℕ × Reader) :=
  match readBytes r 8 with
  | .ok (b, r) => .ok (readBe b, r)
  | .error e => .error e

/-! ## Head codec and ftyp (modelled from the spec)

`head.rs` and `ftyp.rs` are not under the provided sources; `parse_head`,
`parse_full_head` and `Ftyp::parse` are modelled from spec sections 3, 4.1
and 6. -/

/-- A decoded atom head: total length, FOURCC, and whether the 16-byte
extended form was used. -/
structure Head where
  ext : Bool
  len : ℕ
  fourcc : List ℕ
  deriving Repr, DecidableEq

/-- The head length: 16 bytes in the extended form, 8 otherwise. -/
def Head.headLen (h : Head) : ℕ :=
  if h.ext then 16 else 8

/-- The content length of an atom: total length minus head length. -/
def Head.contentLen (h : Head) : ℕ :=
  h.len - h.headLen

/-- Modelled from the spec (section 4.1): `parse_head` reads the 4-byte size
and the 4-byte FOURCC; a size of 1 is followed by the 64-bit extended size; a
size of 0 extends the atom to the end of the stream. -/
def parseHead (r : Reader) : Except ErrorKind (Head × Reader) :=
  match readBytes r 4 with
  | .error e => .error e
  | .ok (sizeBytes, r) =>
    match readBytes r 4 with
    | .error e => .error e
    | .ok (fourcc, r) =>
      let size := readBe sizeBytes
      if size = 1 then
        match readBytes r 8 with
        | .error e => .error e
        | .ok (extBytes, r) => .ok (⟨true, readBe extBytes, fourcc⟩, r)
      else if size = 0 then
        .ok (⟨false, r.data.length - (r.pos - 8), fourcc⟩, r)
      else
        .ok (⟨false, size, fourcc⟩, r)

/-- Modelled from the spec (section 4.1): a full-box head is one version byte
and three flag bytes. -/
def parseFullHead (r : Reader) : Except ErrorKind ((ℕ × List ℕ) × Reader) :=
  match readBytes r 4 with
  | .ok (b, r) => .ok ((b.getD 0 0, b.tail), r)
  | .error e => .error e

/-- The FOURCC bytes of `moov`. -/
def moovIdent : List ℕ := [0x6d, 0x6f, 0x6f, 0x76]

/-- The FOURCC bytes of `mdat`. -/
def mdatIdent : List ℕ := [0x6d, 0x64, 0x61, 0x74]

/-- The FOURCC bytes of `ftyp`. -/
def ftypIdent : List ℕ := [0x66, 0x74, 0x79, 0x70]

/-- The `VALID_FILE_TYPES` brands (src/atom.rs line 13) as byte lists:
`"M4A "`, `"M4B "`, `"M4P "`, `"M4V "`, `"isom"`. -/
def validBrands : List (List ℕ) :=
  [[77, 52, 65, 32], [77, 52, 66, 32], [77, 52, 80, 32], [77, 52, 86, 32],
   [105, 115, 111, 109]]

/-- Modelled from the spec (sections 6 and 7): `Ftyp::parse` requires the
first atom to be `ftyp` (`NoTag` otherwise), reads its content, and accepts
exactly the brands of `VALID_FILE_TYPES` by prefix match
(`InvalidFiletype` otherwise). -/
def ftypParse (r : Reader) : Except ErrorKind Reader :=
  match parseHead r with
  | .error e => .error e
  | .ok (head, r) =>
    if head.fourcc ≠ ftypIdent then .error .noTag
    else
      match readBytes r head.contentLen with
      | .error e => .error e
      | .ok (content, r) =>
        if validBrands.any (fun b => content.take b.length == b) then .ok r
        else .error .invalidFiletype

/-! ## The moov search loops (src/atom/mod.rs lines 160-182 and 220-245) -/

/-- The moov search loop of `read_tag_from` (src/atom/mod.rs lines 162-182):
before each head, `parsed_bytes >= len` fails with `AtomNotFound(moov)`; a
`moov` head breaks out into `Moov::parse` (not needed by the claims, so the
loop returns unit); any other atom is skipped by its content length. -/
def readTagLoop (fuel : ℕ) (r : Reader) (len parsedBytes : ℕ) : Except ErrorKind Unit :=
  if len ≤ parsedBytes then .error (.atomNotFound moovIdent)
  else match fuel with
  | 0 => .error .fuel
  | fuel + 1 =>
    match parseHead r with
    | .error e => .error e
    | .ok (head, r) =>
      if head.fourcc = moovIdent then .ok ()
      else readTagLoop fuel (r.seek head.contentLen) len (parsedBytes + head.len)

/-- `read_tag_from` up to the point where `moov` is found
(src/atom/mod.rs lines 157-182). -/
def readTagMoovSearch (bytes : List ℕ) : Except ErrorKind Unit :=
  match ftypParse ⟨bytes, 0⟩ with
  | .error e => .error e
  | .ok r => readTagLoop (bytes.length + 1) r (r.data.length - r.pos) 0

/-- The top-level sweep of `write_tag_to` (src/atom/mod.rs lines 225-237).
`Moov::find` and `Mdat::find` are modelled from the spec (section 4.6): they
record the atom's position and leave the reader at the end of the atom.  The
result is the final pair of optional `moov` and `mdat` positions. -/
def writeTagFindLoop (fuel : ℕ) (r : Reader) (len parsedBytes : ℕ)
    (moov mdat : Option ℕ) : Except ErrorKind (Option ℕ × Option ℕ) :=
  if parsedBytes < len then
    match fuel with
    | 0 => .error .fuel
    | fuel + 1 =>
      let headPos := r.pos
      match parseHead r with
      | .error e => .error e
      | .ok (head, r) =>
        if head.fourcc = moovIdent then
          writeTagFindLoop fuel ⟨r.data, headPos + head.len⟩ len
            (parsedBytes + head.len) (some headPos) mdat
        else if head.fourcc = mdatIdent then
          writeTagFindLoop fuel ⟨r.data, headPos + head.len⟩ len
            (parsedBytes + head.len) moov (some headPos)
        else
          writeTagFindLoop fuel (r.seek head.contentLen) len
            (parsedBytes + head.len) moov mdat
  else .ok (moov, mdat)

/-- `write_tag_to` up to the `moov` presence check
(src/atom/mod.rs lines 214-245): on success the `moov` position and the
optional `mdat` position; with no `moov` the `AtomNotFound(moov)` error,
raised before anything is written. -/
def writeTagPlanMoov (bytes : List ℕ) : Except ErrorKind (ℕ × Option ℕ) :=
  match ftypParse ⟨bytes, 0⟩ with
  | .error e => .error e
  | .ok r =>
    match writeTagFindLoop (bytes.length + 1) r (r.data.length - r.pos) 0 none none with
    | .error e => .error e
    | .ok (none, _) => .error (.atomNotFound moovIdent)
    | .ok (some p, mdat) => .ok (p, mdat)

/-- The serialized form of a short-head top-level box. -/
def boxBytes (fourcc : List ℕ) (content : List ℕ) : List ℕ :=
  be32 (8 + content.length) ++ fourcc ++ content

/-- The serialized form of a sequence of top-level boxes. -/
def topLevelBytes (boxes : List (List ℕ × List ℕ)) : List ℕ :=
  (boxes.map fun b => boxBytes b.1 b.2).flatten

/-! ## The co64 parser (src/atom/co64.rs lines 14-46) -/

/-- The entry-reading loop of `Co64::parse_atom`
(src/atom/co64.rs lines 38-42). -/
def readU64s (r : Reader) : ℕ → List ℕ → Except ErrorKind (List ℕ × Reader)
  | 0, acc => .ok (acc, r)
  | n + 1, acc =>
    match readBeU64 r with
    | .ok (o, r) => readU64s r n (acc ++ [o])
    | .error e => .error e

/-- `Co64::parse_atom` (src/atom/co64.rs lines 15-45): full-box head, version
must be 0 (`UnknownVersion` otherwise), entry count must satisfy
`8 + 8 * entries == size.content_len()` (`Parsing` otherwise), then the
64-bit entries.  `find_bounds` only records positions and is omitted. -/
def co64ParseAtom (r : Reader) (size : Size) : Except ErrorKind (List ℕ × Reader) :=
  match parseFullHead r with
  | .error e => .error e
  | .ok ((version, _flags), r) =>
    if version ≠ 0 then .error (.unknownVersion version)
    else
      match readBeU32 r with
      | .error e => .error e
      | .ok (entries, r) =>
        if 8 + 8 * entries ≠ size.contentLen then .error .parsing
        else readU64s r entries []

/-! ## Data values

Modelled from the spec (section 3): `data.rs` is absent from the sources.
A `Data` value is tagged by its well-known type code and carries its payload
bytes. -/

/-- A tagged metadata value; each variant carries its raw payload bytes. -/
inductive Data where
  | utf8 (bytes : List ℕ)
  | utf16 (bytes : List ℕ)
  | jpeg (bytes : List ℕ)
  | png (bytes : List ℕ)
  | bmp (bytes : List ℕ)
  | beSigned (bytes : List ℕ)
  | reserved (bytes : List ℕ)
  deriving Repr, DecidableEq

/-- A data template: the expected well-known type of a `data` payload. -/
inductive DataT where
  | utf8
  | utf16
  | jpeg
  | png
  | bmp
  | beSigned
  | reserved
  deriving Repr, DecidableEq

/-- Modelled from the spec (section 3): the well-known type codes
0 reserved, 1 UTF-8, 2 UTF-16 BE, 13 JPEG, 14 PNG, 21 BE signed, 27 BMP. -/
def DataT.ofCode (code : ℕ) : Option DataT :=
  if code = 0 then some .reserved
  else if code = 1 then some .utf8
  else if code = 2 then some .utf16
  else if code = 13 then some .jpeg
  else if code = 14 then some .png
  else if code = 21 then some .beSigned
  else if code = 27 then some .bmp
  else none

/-- Wrapping payload bytes in the `Data` variant of a template. -/
def DataT.wrap : DataT → List ℕ → Data
  | .utf8, b => .utf8 b
  | .utf16, b => .utf16 b
  | .jpeg, b => .jpeg b
  | .png, b => .png b
  | .bmp, b => .bmp b
  | .beSigned, b => .beSigned b
  | .reserved, b => .reserved b

/-- Modelled from the spec: `DataT::parse` reads exactly `length` payload
bytes and wraps them in the template's variant. -/
def DataT.parse (d : DataT) (r : Reader) (length : ℕ) : Except ErrorKind (Data × Reader) :=
  match readBytes r length with
  | .ok (bytes, r) => .ok (d.wrap bytes, r)
  | .error e => .error e

namespace Legacy

/-! ## The legacy atom model (src/atom.rs, src/core/content.rs)

`src/atom.rs` and `src/core/content.rs` use the template-driven tree model:
an `AtomT`/`ContentT` template drives the parse, producing `Atom`/`Content`
values. -/

/-- `Ident(pub [u8; 4])` (src/atom.rs lines 89-90): a 4-byte identifier. -/
abbrev Ident := List ℕ

mutual
/-- The content template of an atom template
(src/core/content.rs lines 165-176). -/
inductive ContentT where
  | atoms (l : List AtomT)
  | rawData (d : DataT)
  | typedData
  | empty

/-- An atom template (src/atom.rs lines 232-239): identifier, head-content
offset, content template. -/
inductive AtomT where
  | mk (ident : Ident) (offset : ℕ) (content : ContentT)
end

/-- The identifier of an atom template. -/
def AtomT.ident : AtomT → Ident
  | .mk i _ _ => i

/-- The offset of an atom template. -/
def AtomT.offset : AtomT → ℕ
  | .mk _ o _ => o

/-- The content template of an atom template. -/
def AtomT.content : AtomT → ContentT
  | .mk _ _ c => c

mutual
/-- The content of a parsed atom (src/core/content.rs lines 8-19). -/
inductive Content where
  | atoms (l : List Atom)
  | rawData (d : Data)
  | typedData (d : Data)
  | empty

/-- A parsed atom (src/atom.rs lines 108-115). -/
inductive Atom where
  | mk (ident : Ident) (offset : ℕ) (content : Content)
end

/-- `parse_head` (src/atom.rs lines 505-524): a 32-bit big-endian length and
a 4-byte identifier; byte-stream failures are `Io` errors. -/
def parseHeadOld (r : Reader) : Except ErrorKind ((ℕ × Ident) × Reader) := do
  let (lb, r) ← readBytes r 4
  let (ib, r) ← readBytes r 4
  pure ((readBe lb, ib), r)

/-- Wrapping `usize` subtraction (release-mode Rust `a - b`). -/
def usizeSub (a b : ℕ) : ℕ :=
  (((a : ℤ) - b) % 2 ^ 64).toNat

mutual
/-- `AtomT::parse_atoms` (src/atom.rs lines 340-382) as a fueled loop:
while `parsed_bytes < length`, parse a head; a template with the matching
identifier parses the content; otherwise an atom longer than its 8-byte head
is skipped by seeking `atom_length - 8`; in both cases the head's declared
length is added to `parsed_bytes`. -/
def parseAtomsGo (fuel : ℕ) (atoms : List AtomT) (r : Reader) (length parsedBytes : ℕ)
    (acc : List Atom) : Except ErrorKind (List Atom × Reader) :=
  if parsedBytes < length then
    match fuel with
    | 0 => .error .fuel
    | fuel + 1 =>
      match parseHeadOld r with
      | .error e => .error e
      | .ok ((atomLength, atomIdent), r) =>
        match atoms.find? (fun a => a.ident == atomIdent) with
        | some a =>
          match parseContent fuel a r atomLength with
          | .error e => .error e
          | .ok (c, r) =>
            parseAtomsGo fuel atoms r length (parsedBytes + atomLength)
              (acc ++ [Atom.mk a.ident a.offset c])
        | none =>
          let r := if 8 < atomLength then r.seek (atomLength - 8) else r
          parseAtomsGo fuel atoms r length (parsedBytes + atomLength) acc
  else
    let r := if parsedBytes < length then r.seek (length - parsedBytes) else r
    .ok (acc, r)
termination_by (fuel, 0)

/-- `AtomT::parse_content` (src/atom.rs lines 385-394): atoms no longer than
their head have empty content; otherwise the reader skips the template's
offset and the content template parses `length - 8 - offset` bytes. -/
def parseContent (fuel : ℕ) (a : AtomT) (r : Reader) (length : ℕ) :
    Except ErrorKind (Content × Reader) :=
  if 8 < length then
    let r := if a.offset ≠ 0 then r.seek a.offset else r
    contentTParseGo fuel a.content r (usizeSub (length - 8) a.offset)
  else .ok (.empty, r)
termination_by (fuel, 2)

/-- `ContentT::parse` (src/core/content.rs lines 278-307): children are
parsed via the loop; raw data parses by its template; typed data reads the
32-bit type code and the 4-byte locale, then parses `length - 8` payload
bytes; an unknown type code is a `Parsing` error. -/
def contentTParseGo (fuel : ℕ) (c : ContentT) (r : Reader) (length : ℕ) :
    Except ErrorKind (Content × Reader) :=
  match c with
  | .atoms v =>
    match parseAtomsGo fuel v r length 0 [] with
    | .ok (l, r) => .ok (.atoms l, r)
    | .error e => .error e
  | .rawData d =>
    match DataT.parse d r length with
    | .ok (dv, r) => .ok (.rawData dv, r)
    | .error e => .error e
  | .typedData =>
    if 8 ≤ length then
      match readBeU32 r with
      | .error e => .error e
      | .ok (code, r) =>
        let r := r.seek 4
        match DataT.ofCode code with
        | some dt =>
          match DataT.parse dt r (length - 8) with
          | .ok (dv, r) => .ok (.typedData dv, r)
          | .error e => .error e
        | none => .error .parsing
    else .error .parsing
  | .empty => .ok (.empty, r)
termination_by (fuel, 1)
end

/-- `Content::take_data` (src/core/content.rs lines 135-144): `self` is
replaced by the default `Empty`; typed and raw data are returned. -/
def Content.take_data (c : Content) : Option Data × Content :=
  (match c with
   | .typedData d => some d
   | .rawData d => some d
   | _ => none,
   .empty)

end Legacy

/-! ## Generated flag accessors (mp4ameta_proc/src/lib.rs lines 162-196)

The tag facade (`tag.rs`) is not under the provided sources.  Modelled from
the spec (section 6): a `Tag` carries the flat metadata entries, `data(ident)`
iterates the `Data` entries stored under an identifier in order, `set_data`
replaces all entries under the identifier by the given one, and `remove_data`
removes them. -/

/-- Modelled from the spec: the flat metadata list of a tag, as
`(identifier, data entry)` pairs in file order. -/
structure Tag where
  items : List (List ℕ × Data)
  deriving Repr, DecidableEq

/-- Modelled from the spec: `Tag::data(ident)`, the data entries stored under
an identifier, in order. -/
def Tag.dataEntries (t : Tag) (i : List ℕ) : List Data :=
  (t.items.filter fun p => p.1 == i).map Prod.snd

/-- Modelled from the spec: `Tag::set_data(ident, data)` replaces every entry
under the identifier with the given one. -/
def Tag.setData (t : Tag) (i : List ℕ) (d : Data) : Tag :=
  ⟨(t.items.filter fun p => p.1 != i) ++ [(i, d)]⟩

/-- Modelled from the spec: `Tag::remove_data(ident)` removes every entry
under the identifier. -/
def Tag.removeData (t : Tag) (i : List ℕ) : Tag :=
  ⟨t.items.filter fun p => p.1 != i⟩

/-- `vec.get(0).map(|&v| v == 1).unwrap_or(false)`
(mp4ameta_proc/src/lib.rs line 178). -/
def flagFirstByte (v : List ℕ) : Bool :=
  match v.head? with
  | some b => b == 1
  | none => false

/-- The generated flag getter (mp4ameta_proc/src/lib.rs lines 171-179): the
first data entry under the identifier must be `Reserved` or `BeSigned` and
its first byte must be 1. -/
def flagValue (t : Tag) (i : List ℕ) : Bool :=
  match (t.dataEntries i).head? with
  | some (Data.reserved v) => flagFirstByte v
  | some (Data.beSigned v) => flagFirstByte v
  | _ => false

/-- The generated flag setter (mp4ameta_proc/src/lib.rs lines 182-184):
`set_data(ident, Data::BeSigned(vec![1u8]))`. -/
def setFlag (t : Tag) (i : List ℕ) : Tag :=
  t.setData i (Data.beSigned [1])

/-- The generated flag remover (mp4ameta_proc/src/lib.rs lines 187-189):
`remove_data(ident)`. -/
def removeFlag (t : Tag) (i : List ℕ) : Tag :=
  t.removeData i

/-! ## Arithmetic lemmas about the machine-integer casts -/

theorem be32_length (n : ℕ) : (be32 n).length = 4 := rfl

theorem be64_length (n : ℕ) : (be64 n).length = 8 := rfl

theorem wrapI64_emod (x : ℤ) (d : ℤ) (hd : d ∣ 2 ^ 64) :
    wrapI64 x % d = x % d := by
  have h : wrapI64 x = x - 2 ^ 64 * ((x + 2 ^ 63) / 2 ^ 64) := by
    have := Int.emod_add_ediv (x + 2 ^ 63) (2 ^ 64)
    unfold wrapI64
    linarith
  obtain ⟨c, hc⟩ := hd
  rw [h, hc]
  rw [show d * c * ((x + 2 ^ 63) / (d * c)) = d * (c * ((x + 2 ^ 63) / (d * c))) by ring]
  rw [Int.sub_emod, Int.mul_emod_right, sub_zero, Int.emod_emod_of_dvd x dvd_rfl]

theorem u32OfI64_wrapI64 (x : ℤ) : u32OfI64 (wrapI64 x) = (x % 2 ^ 32).toNat := by
  unfold u32OfI64
  rw [wrapI64_emod x (2 ^ 32) (by norm_num)]

theorem u64OfI64_wrapI64 (x : ℤ) : u64OfI64 (wrapI64 x) = (x % 2 ^ 64).toNat := by
  unfold u64OfI64
  rw [wrapI64_emod x (2 ^ 64) dvd_rfl]

theorem i64OfU64_add_emod (x : ℕ) (dlt : ℤ) (k : ℤ) (hk : k ∣ 2 ^ 64) :
    (i64OfU64 x + dlt) % k = ((x : ℤ) + dlt) % k := by
  unfold i64OfU64
  split
  · rfl
  · obtain ⟨c, hc⟩ := hk
    rw [show (x : ℤ) - 2 ^ 64 + dlt = (x : ℤ) + dlt - 2 ^ 64 by ring, hc,
      show (x : ℤ) + dlt - k * c = (x : ℤ) + dlt + k * (-c) by ring,
      Int.add_mul_emod_self_left]

theorem stcoNewOffset_emod (dlt : ℤ) (co : ℕ) :
    stcoNewOffset dlt co = (((co : ℤ) + dlt) % 2 ^ 32).toNat := by
  unfold stcoNewOffset
  rw [u32OfI64_wrapI64]

theorem co64NewOffset_emod (dlt : ℤ) (co : ℕ) :
    co64NewOffset dlt co = (((co : ℤ) + dlt) % 2 ^ 64).toNat := by
  unfold co64NewOffset
  rw [u64OfI64_wrapI64, i64OfU64_add_emod co dlt (2 ^ 64) dvd_rfl]

/-! ## Claim C1: when the chunk-offset rewrite step runs -/

/-- C1, counterexample.  The claim states that the offset tables are
rewritten only if `len_diff != 0`; the code guards the step by
`mdat_pos > moov.pos()` alone (src/atom/mod.rs line 317).  With
`mdat_pos = 100 > moov_pos = 16`, `len_diff = 0` and one `stco` table at
position 40 holding the single entry 42, the step still writes the table
(with the unchanged value). -/
theorem c1_rewrite_guard_cex :
    chunkOffsetWrites 100 16 0 [⟨some ⟨some ⟨some ⟨some ⟨40, [42]⟩, none⟩⟩⟩⟩]
        = [(40, be32 42)] ∧
    [(40, be32 42)] ≠ ([] : List (ℕ × List ℕ)) := by
  constructor
  · decide
  · decide

/-- C1, amended: `write_tag_to` runs the chunk-offset rewrite step exactly
when `mdat.pos > moov.pos`, regardless of `len_diff` (when `len_diff = 0`
the entries are rewritten with their unchanged values); in that case every
`stco` entry is written back at its table slot shifted by `len_diff`
truncated to `u32`, and every `co64` entry shifted by `len_diff` wrapped to
`u64`; when `mdat` precedes `moov` no chunk-offset entry is written. -/
theorem c1_rewrite_guard_amended (mdatPos moovPos : ℕ) (dlt : ℤ)
    (traks : List TrakBounds) :
    (¬ moovPos < mdatPos → chunkOffsetWrites mdatPos moovPos dlt traks = []) ∧
    (∀ s, moovPos < mdatPos → s ∈ stblAtoms traks →
      (∀ a, s.stco = some a → ∀ i, ∀ h : i < a.offsets.length,
        (a.tablePos + 4 * i, be32 ((((a.offsets.get ⟨i, h⟩ : ℕ) : ℤ) + dlt) % 2 ^ 32).toNat)
          ∈ chunkOffsetWrites mdatPos moovPos dlt traks) ∧
      (∀ a, s.co64 = some a → ∀ i, ∀ h : i < a.offsets.length,
        (a.tablePos + 8 * i, be64 ((((a.offsets.get ⟨i, h⟩ : ℕ) : ℤ) + dlt) % 2 ^ 64).toNat)
          ∈ chunkOffsetWrites mdatPos moovPos dlt traks)) := by
  constructor
  · intro hge
    simp [chunkOffsetWrites, hge]
  · intro s hlt hs
    constructor
    · intro a ha i h
      unfold chunkOffsetWrites
      rw [if_pos hlt]
      refine List.mem_flatMap.mpr ⟨s, hs, ?_⟩
      unfold stblWrites
      rw [ha]
      refine List.mem_append_left _ ?_
      rw [← stcoNewOffset_emod]
      have hi : i < a.offsets.enum.length := by simpa using h
      have : (a.tablePos + 4 * i, be32 (stcoNewOffset dlt (a.offsets.get ⟨i, h⟩)))
          = (stcoWrites dlt a).get ⟨i, by simpa [stcoWrites] using h⟩ := by
        simp [stcoWrites, List.get_eq_getElem]
      rw [this]
      exact List.get_mem _ _ _
    · intro a ha i h
      unfold chunkOffsetWrites
      rw [if_pos hlt]
      refine List.mem_flatMap.mpr ⟨s, hs, ?_⟩
      unfold stblWrites
      rw [ha]
      refine List.mem_append_right _ ?_
      rw [← co64NewOffset_emod]
      have : (a.tablePos + 8 * i, be64 (co64NewOffset dlt (a.offsets.get ⟨i, h⟩)))
          = (co64Writes dlt a).get ⟨i, by simpa [co64Writes] using h⟩ := by
        simp [co64Writes, List.get_eq_getElem]
      rw [this]
      exact List.get_mem _ _ _

/-- C1, witness: the amended theorem evaluated on one `stco` table at
position 40 with the entry 42 and `len_diff = 5`. -/
theorem c1_rewrite_guard_amended_witness :
    chunkOffsetWrites 0 16 5 [⟨some ⟨some ⟨some ⟨some ⟨40, [42]⟩, none⟩⟩⟩⟩] = [] ∧
    (40 + 4 * 0, be32 ((((42 : ℕ) : ℤ) + 5) % 2 ^ 32).toNat)
      ∈ chunkOffsetWrites 100 16 5 [⟨some ⟨some ⟨some ⟨some ⟨40, [42]⟩, none⟩⟩⟩⟩] :=
  ⟨(c1_rewrite_guard_amended 0 16 5 _).1 (by decide),
   ((c1_rewrite_guard_amended 100 16 5
        [⟨some ⟨some ⟨some ⟨some ⟨40, [42]⟩, none⟩⟩⟩⟩]).2
      ⟨some ⟨40, [42]⟩, none⟩ (by decide) (by decide)).1
    ⟨40, [42]⟩ rfl 0 (by decide)⟩

/-! ## Claim C2: the stco cast truncates instead of saturating -/

/-- C2, counterexample.  The claim states the shifted `stco` value is
u32-saturated; `(*co as i64 + len_diff) as u32` truncates instead
(src/atom/mod.rs line 329): entry `u32::MAX` shifted by `+1` is written back
as 0, not clamped to `u32::MAX`. -/
theorem c2_stco_saturation_cex :
    stcoNewOffset 1 4294967295 = 0 ∧ stcoNewOffset 1 4294967295 ≠ 4294967295 := by
  constructor
  · decide
  · decide

/-- C2, amended: the `stco` entries are written back truncated to the low
32 bits of `entry + len_diff` (two's complement wrapping, not saturation),
and the `co64` entries wrapped to the low 64 bits. -/
theorem c2_casts_wrap (dlt : ℤ) (co : ℕ) :
    stcoNewOffset dlt co = (((co : ℤ) + dlt) % 2 ^ 32).toNat ∧
    co64NewOffset dlt co = (((co : ℤ) + dlt) % 2 ^ 64).toNat :=
  ⟨stcoNewOffset_emod dlt co, co64NewOffset_emod dlt co⟩

/-! ## Claim C3: size patching never fails, it wraps -/

/-- C3, counterexample.  The claim states that a non-extended atom whose new
size exceeds `u32::MAX` makes the rewrite fail with `Unsupported`; the code
has no such check (src/atom/mod.rs lines 349-359) and writes the size
truncated to `u32`: an atom of old length `u32::MAX` patched with
`len_diff = 10` gets size 9 written, with no error. -/
theorem c3_size_overflow_cex :
    sizePatchWrites 10 [⟨16, 4294967295, false⟩] = [(16, be32 9)] ∧
    (9 : ℤ) ≠ 4294967295 + 10 := by
  constructor
  · decide
  · decide

/-- C3, amended: each patched atom's written size is `old_size + len_diff`;
extended-head atoms keep the extended form (size field 1 and the 64-bit
`old + len_diff` wrapped to `u64` eight bytes in); a non-extended atom whose
new size exceeds `u32::MAX` is written truncated to `u32` without any error,
and in the non-overflowing case the exact value `old + len_diff` is
written. -/
theorem c3_size_patch_wraps_amended (dlt : ℤ) (atoms : List AtomBounds)
    (a : AtomBounds) (hmem : a ∈ atoms) :
    (a.ext = true → updateAtomWrites dlt a =
      [(a.pos, be32 1), (a.pos + 8, be64 ((((a.len : ℤ)) + dlt) % 2 ^ 64).toNat)]) ∧
    (a.ext = false → updateAtomWrites dlt a =
      [(a.pos, be32 ((((a.len : ℤ)) + dlt) % 2 ^ 32).toNat)]) ∧
    (a.ext = false → 0 ≤ (a.len : ℤ) + dlt → (a.len : ℤ) + dlt < 2 ^ 32 →
      updateAtomWrites dlt a = [(a.pos, be32 ((a.len : ℤ) + dlt).toNat)]) ∧
    (∀ w ∈ updateAtomWrites dlt a, w ∈ sizePatchWrites dlt atoms) := by
  have hu32 : u32OfI64 (wrapI64 (i64OfU64 a.len + dlt)) = (((a.len : ℤ) + dlt) % 2 ^ 32).toNat := by
    rw [u32OfI64_wrapI64, i64OfU64_add_emod a.len dlt (2 ^ 32) (by norm_num)]
  have hu64 : u64OfI64 (wrapI64 (i64OfU64 a.len + dlt)) = (((a.len : ℤ) + dlt) % 2 ^ 64).toNat := by
    rw [u64OfI64_wrapI64, i64OfU64_add_emod a.len dlt (2 ^ 64) dvd_rfl]
  refine ⟨?_, ?_, ?_, ?_⟩
  · intro hext
    unfold updateAtomWrites
    rw [if_pos hext, hu64]
  · intro hext
    unfold updateAtomWrites
    rw [if_neg (by simp [hext]), hu32]
  · intro hext hlo hhi
    unfold updateAtomWrites
    rw [if_neg (by simp [hext]), hu32, Int.emod_eq_of_lt hlo hhi]
  · intro w hw
    unfold sizePatchWrites
    exact List.mem_flatMap.mpr ⟨a, List.mem_reverse.mpr hmem, hw⟩

/-- C3, witness: the amended theorem evaluated on a non-extended atom at
position 16 of old length 100 with `len_diff = 5`. -/
theorem c3_size_patch_wraps_amended_witness :
    updateAtomWrites 5 ⟨16, 100, false⟩ = [(16, be32 (((100 : ℤ) + 5)).toNat)] ∧
    (16, be32 ((((100 : ℤ)) + 5) % 2 ^ 32).toNat) ∈ sizePatchWrites 5 [⟨16, 100, false⟩] :=
  ⟨(c3_size_patch_wraps_amended 5 [⟨16, 100, false⟩] ⟨16, 100, false⟩
      (by decide)).2.2.1 rfl (by decide) (by decide),
   (c3_size_patch_wraps_amended 5 [⟨16, 100, false⟩] ⟨16, 100, false⟩
      (by decide)).2.2.2 (16, be32 ((((100 : ℤ)) + 5) % 2 ^ 32).toNat) (by decide)⟩

/-! ## Claim C9: a missing mdat defaults to position 0 and disables the
offset rewrite -/

/-- C9: with no `mdat` atom found, `mdat.map_or(0, |a| a.pos())` is 0, the
guard `mdat_pos > moov.pos()` is false, and the chunk-offset rewrite step of
`write_tag_to` performs no write at all, leaving every `stco` and `co64`
table untouched. -/
theorem c9_no_mdat_no_offset_rewrite (moovPos : ℕ) (dlt : ℤ)
    (traks : List TrakBounds) :
    mdatPosOf none = 0 ∧ chunkOffsetWrites (mdatPosOf none) moovPos dlt traks = [] := by
  refine ⟨rfl, ?_⟩
  simp [mdatPosOf, chunkOffsetWrites]

/-! ## Claim C4: serialized length equals `size().len()` -/

theorem writeHead_length (s : Size) (f : List ℕ) (hf : f.length = 4) :
    (writeHead s f).length = s.headLen := by
  unfold writeHead Size.headLen
  split
  · simp [be32, be64, hf]
  · simp [be32, hf]

theorem flatMap_be64_length (l : List ℕ) : (l.flatMap be64).length = 8 * l.length := by
  induction l with
  | nil => rfl
  | cons x xs ih =>
    simp only [List.flatMap_cons, List.length_append, ih, be64_length, List.length_cons]
    ring

/-- C4: for every in-memory `Co64` value the bytes emitted by
`Co64::write_atom` are exactly `size().len()` many (a head plus
`8 + 8 * offsets.len()` content bytes), and for every `Hdlr` value the bytes
emitted by `Hdlr::write_atom` are a head plus exactly the payload length. -/
theorem c4_write_len_eq_size_len (offsets payload : List ℕ) :
    (co64WriteBytes offsets).length = (co64Size offsets).len ∧
    (hdlrWriteBytes payload).length = (hdlrSize payload).len := by
  constructor
  · unfold co64WriteBytes co64Size
    rw [Size.len]
    simp only [List.length_append]
    rw [writeHead_length _ co64Fourcc rfl]
    simp only [writeFullHead, flatMap_be64_length, be32_length, List.length_cons,
      List.length_nil, List.length_append, Size.ofContentLen]
    omega
  · unfold hdlrWriteBytes hdlrSize
    rw [Size.len]
    simp only [List.length_append]
    rw [writeHead_length _ hdlrFourcc rfl]
    simp only [Size.ofContentLen]

/-! ## Reading structured byte streams -/

theorem readBytes_exact (pre mid suf : List ℕ) :
    readBytes ⟨pre ++ (mid ++ suf), pre.length⟩ mid.length =
      .ok (mid, ⟨pre ++ (mid ++ suf), pre.length + mid.length⟩) := by
  unfold readBytes
  rw [if_pos (by simp [List.length_append])]
  rw [List.drop_left, List.take_left]

theorem readBe_be32 (n : ℕ) (h : n < 2 ^ 32) : readBe (be32 n) = n := by
  simp only [readBe, be32, List.foldl_cons, List.foldl_nil]
  omega

theorem readBe_be64 (n : ℕ) (h : n < 2 ^ 64) : readBe (be64 n) = n := by
  simp only [readBe, be64, List.foldl_cons, List.foldl_nil]
  omega

theorem parseFullHead_cons (pre : List ℕ) (v : ℕ) (rest : List ℕ) (h : 3 ≤ rest.length) :
    parseFullHead ⟨pre ++ v :: rest, pre.length⟩ =
      .ok ((v, rest.take 3), ⟨pre ++ v :: rest, pre.length + 4⟩) := by
  unfold parseFullHead readBytes
  rw [if_pos (by simp [List.length_append]; omega)]
  rw [List.drop_left]
  rfl

theorem readU64s_exact (offs : List ℕ) :
    ∀ (pre suf acc : List ℕ), (∀ o ∈ offs, o < 2 ^ 64) →
      readU64s ⟨pre ++ (offs.flatMap be64 ++ suf), pre.length⟩ offs.length acc =
        .ok (acc ++ offs, ⟨pre ++ (offs.flatMap be64 ++ suf), pre.length + 8 * offs.length⟩) := by
  induction offs with
  | nil =>
    intro pre suf acc _
    simp [readU64s]
  | cons o os ih =>
    intro pre suf acc hlt
    have hstep : readBeU64 ⟨pre ++ ((o :: os).flatMap be64 ++ suf), pre.length⟩ =
        .ok (o, ⟨pre ++ ((o :: os).flatMap be64 ++ suf), pre.length + 8⟩) := by
      unfold readBeU64
      rw [show pre ++ ((o :: os).flatMap be64 ++ suf)
            = pre ++ (be64 o ++ (os.flatMap be64 ++ suf)) by
          simp [List.flatMap_cons]]
      rw [show (8 : ℕ) = (be64 o).length from (be64_length o).symm, readBytes_exact]
      dsimp only
      rw [readBe_be64 o (hlt o (by simp)), be64_length]
    show readU64s _ (os.length + 1) acc = _
    unfold readU64s
    rw [hstep]
    dsimp only
    have hre : pre ++ ((o :: os).flatMap be64 ++ suf)
        = (pre ++ be64 o) ++ (os.flatMap be64 ++ suf) := by
      simp [List.flatMap_cons]
    have hpos : pre.length + 8 = (pre ++ be64 o).length := by
      simp [be64_length]
    rw [hre, hpos]
    rw [ih (pre ++ be64 o) suf (acc ++ [o]) (fun x hx => hlt x (by simp [hx]))]
    simp [be64_length, List.flatMap_cons]
    omega

/-! ## Claim C7: the co64 parser -/

theorem co64_parse_version_err (pre rest : List ℕ) (v : ℕ) (size : Size)
    (hr : 3 ≤ rest.length) (hv : v ≠ 0) :
    co64ParseAtom ⟨pre ++ v :: rest, pre.length⟩ size = .error (.unknownVersion v) := by
  unfold co64ParseAtom
  rw [parseFullHead_cons pre v rest hr]
  simp [hv]

theorem readBeU32_at (pre flags suf : List ℕ) (n : ℕ)
    (hf : flags.length = 3) (hn : n < 2 ^ 32) :
    readBeU32 ⟨pre ++ 0 :: (flags ++ (be32 n ++ suf)), pre.length + 4⟩ =
      .ok (n, ⟨pre ++ 0 :: (flags ++ (be32 n ++ suf)), pre.length + 8⟩) := by
  unfold readBeU32
  have hd : pre ++ 0 :: (flags ++ (be32 n ++ suf))
      = (pre ++ 0 :: flags) ++ (be32 n ++ suf) := by simp
  have hl : pre.length + 4 = (pre ++ 0 :: flags).length := by simp [hf]
  rw [hd, hl, show (4 : ℕ) = (be32 n).length from (be32_length n).symm, readBytes_exact]
  dsimp only
  rw [readBe_be32 n hn]
  have hl8 : (pre ++ 0 :: flags).length + (be32 n).length = pre.length + 8 := by
    simp [hf, be32_length]
  rw [hl8]

theorem co64_parse_count_err (pre flags suf : List ℕ) (n : ℕ) (size : Size)
    (hf : flags.length = 3) (hn : n < 2 ^ 32) (hne : 8 + 8 * n ≠ size.contentLen) :
    co64ParseAtom ⟨pre ++ 0 :: (flags ++ (be32 n ++ suf)), pre.length⟩ size =
      .error .parsing := by
  unfold co64ParseAtom
  rw [parseFullHead_cons pre 0 (flags ++ (be32 n ++ suf)) (by simp [hf])]
  simp only [ne_eq, not_true_eq_false, if_false, ite_false]
  rw [readBeU32_at pre flags suf n hf hn]
  simp [hne]

theorem co64_parse_ok (pre flags suf offs : List ℕ) (size : Size)
    (hf : flags.length = 3) (hn : offs.length < 2 ^ 32)
    (ho : ∀ o ∈ offs, o < 2 ^ 64)
    (hsz : size.contentLen = 8 + 8 * offs.length) :
    co64ParseAtom
        ⟨pre ++ 0 :: (flags ++ (be32 offs.length ++ (offs.flatMap be64 ++ suf))),
          pre.length⟩ size =
      .ok (offs,
        ⟨pre ++ 0 :: (flags ++ (be32 offs.length ++ (offs.flatMap be64 ++ suf))),
          pre.length + 8 + 8 * offs.length⟩) := by
  unfold co64ParseAtom
  rw [parseFullHead_cons pre 0 _ (by simp [hf])]
  simp only [ne_eq, not_true_eq_false, if_false, ite_false]
  rw [readBeU32_at pre flags (offs.flatMap be64 ++ suf) offs.length hf hn]
  simp only [hsz, not_true_eq_false, ite_false]
  have hd : pre ++ 0 :: (flags ++ (be32 offs.length ++ (offs.flatMap be64 ++ suf)))
      = (pre ++ 0 :: (flags ++ be32 offs.length)) ++ (offs.flatMap be64 ++ suf) := by
    simp
  have hl : pre.length + 8 = (pre ++ 0 :: (flags ++ be32 offs.length)).length := by
    simp [hf, be32_length]
  rw [hd, hl, readU64s_exact offs _ suf [] ho]
  have hl2 : (pre ++ 0 :: (flags ++ be32 offs.length)).length + 8 * offs.length
      = pre.length + 8 + 8 * offs.length := by
    simp [hf, be32_length]
  rw [hl2]
  simp

/-- C7: `Co64::parse_atom` fails with `UnknownVersion(v)` for every nonzero
version byte `v`; fails with a `Parsing` error whenever
`8 + 8 * entries != size.content_len()`; and on success returns exactly the
entry-count many 64-bit big-endian offsets read from the table. -/
theorem c7_co64_parse (pre flags suf offs rest : List ℕ) (v n : ℕ) (size : Size) :
    (3 ≤ rest.length → v ≠ 0 →
      co64ParseAtom ⟨pre ++ v :: rest, pre.length⟩ size = .error (.unknownVersion v)) ∧
    (flags.length = 3 → n < 2 ^ 32 → 8 + 8 * n ≠ size.contentLen →
      co64ParseAtom ⟨pre ++ 0 :: (flags ++ (be32 n ++ suf)), pre.length⟩ size =
        .error .parsing) ∧
    (flags.length = 3 → offs.length < 2 ^ 32 → (∀ o ∈ offs, o < 2 ^ 64) →
      size.contentLen = 8 + 8 * offs.length →
      co64ParseAtom
          ⟨pre ++ 0 :: (flags ++ (be32 offs.length ++ (offs.flatMap be64 ++ suf))),
            pre.length⟩ size =
        .ok (offs,
          ⟨pre ++ 0 :: (flags ++ (be32 offs.length ++ (offs.flatMap be64 ++ suf))),
            pre.length + 8 + 8 * offs.length⟩)) :=
  ⟨fun hr hv => co64_parse_version_err pre rest v size hr hv,
   fun hf hn hne => co64_parse_count_err pre flags suf n size hf hn hne,
   fun hf hn ho hsz => co64_parse_ok pre flags suf offs size hf hn ho hsz⟩

/-- C7, witness: the version error on version byte 1, the size-mismatch
error on an empty table declared in a 17-byte content, and the successful
parse of the single offset 7. -/
theorem c7_co64_parse_witness :
    co64ParseAtom ⟨[1, 0, 0, 0], 0⟩ ⟨false, 16⟩ = .error (.unknownVersion 1) ∧
    co64ParseAtom ⟨[0, 0, 0, 0] ++ be32 0, 0⟩ ⟨false, 17⟩ = .error .parsing ∧
    co64ParseAtom ⟨[0, 0, 0, 0] ++ (be32 1 ++ be64 7), 0⟩ ⟨false, 16⟩ =
      .ok ([7], ⟨[0, 0, 0, 0] ++ (be32 1 ++ be64 7), 16⟩) :=
  ⟨(c7_co64_parse [] [0, 0, 0] [] [] [0, 0, 0] 1 0 ⟨false, 16⟩).1 (by decide) (by decide),
   (c7_co64_parse [] [0, 0, 0] [] [] [] 0 0 ⟨false, 17⟩).2.1 rfl (by decide) (by decide),
   (c7_co64_parse [] [0, 0, 0] [] [7] [] 0 1 ⟨false, 16⟩).2.2 rfl (by decide)
     (by decide) (by decide)⟩

theorem readBytes_exact_len (pre mid suf : List ℕ) (n : ℕ) (hn : mid.length = n) :
    readBytes ⟨pre ++ (mid ++ suf), pre.length⟩ n =
      .ok (mid, ⟨pre ++ (mid ++ suf), pre.length + n⟩) := by
  subst hn
  exact readBytes_exact pre mid suf

theorem topLevelBytes_cons (b : List ℕ × List ℕ) (boxes : List (List ℕ × List ℕ)) :
    topLevelBytes (b :: boxes) = boxBytes b.1 b.2 ++ topLevelBytes boxes := by
  simp [topLevelBytes]

theorem boxBytes_length (f c : List ℕ) (hf : f.length = 4) :
    (boxBytes f c).length = 8 + c.length := by
  simp [boxBytes, be32_length, hf]
  omega

theorem topLevelBytes_length_ge (boxes : List (List ℕ × List ℕ))
    (hf : ∀ b ∈ boxes, b.1.length = 4) :
    boxes.length ≤ (topLevelBytes boxes).length := by
  induction boxes with
  | nil => simp [topLevelBytes]
  | cons b bs ih =>
    rw [topLevelBytes_cons]
    have h1 := boxBytes_length b.1 b.2 (hf b (by simp))
    have h2 := ih fun x hx => hf x (by simp [hx])
    simp only [List.length_append, List.length_cons, h1]
    omega

theorem parseHead_box (pre fourcc content suf : List ℕ)
    (hf : fourcc.length = 4) (hlen : 8 + content.length < 2 ^ 32) :
    parseHead ⟨pre ++ (boxBytes fourcc content ++ suf), pre.length⟩ =
      .ok (⟨false, 8 + content.length, fourcc⟩,
        ⟨pre ++ (boxBytes fourcc content ++ suf), pre.length + 8⟩) := by
  have h1 : pre ++ (boxBytes fourcc content ++ suf)
      = pre ++ (be32 (8 + content.length) ++ (fourcc ++ (content ++ suf))) := by
    simp [boxBytes]
  rw [h1]
  unfold parseHead
  rw [readBytes_exact_len pre (be32 (8 + content.length)) (fourcc ++ (content ++ suf))
    4 (be32_length _)]
  dsimp only
  have h2 : pre ++ (be32 (8 + content.length) ++ (fourcc ++ (content ++ suf)))
      = (pre ++ be32 (8 + content.length)) ++ (fourcc ++ (content ++ suf)) := by
    simp
  have h3 : pre.length + 4 = (pre ++ be32 (8 + content.length)).length := by
    simp [be32_length]
  rw [h2, h3, readBytes_exact_len _ fourcc (content ++ suf) 4 hf]
  dsimp only
  rw [readBe_be32 _ hlen]
  rw [if_neg (by omega), if_neg (by omega)]
  have h4 : (pre ++ be32 (8 + content.length)).length + 4 = pre.length + 8 := by
    simp [be32_length]
  rw [h4]

/-! ## Claim C6: a missing moov is `AtomNotFound(moov)` -/

theorem readTagLoop_no_moov (boxes : List (List ℕ × List ℕ)) :
    ∀ (pre suf : List ℕ) (fuel parsed len : ℕ),
      (∀ b ∈ boxes, b.1 ≠ moovIdent ∧ b.1.length = 4 ∧ 8 + b.2.length < 2 ^ 32) →
      boxes.length ≤ fuel →
      len = parsed + (topLevelBytes boxes).length →
      readTagLoop fuel ⟨pre ++ (topLevelBytes boxes ++ suf), pre.length⟩ len parsed =
        .error (.atomNotFound moovIdent) := by
  induction boxes with
  | nil =>
    intro pre suf fuel parsed len _ _ hlen
    rw [readTagLoop.eq_def]
    rw [if_pos (by simp [topLevelBytes] at hlen; omega)]
  | cons b bs ih =>
    intro pre suf fuel parsed len hb hfuel hlen
    obtain ⟨hbm, hbf, hbl⟩ := hb b (by simp)
    have hbox := boxBytes_length b.1 b.2 hbf
    rw [readTagLoop.eq_def]
    rw [if_neg (by
      rw [topLevelBytes_cons] at hlen
      simp only [List.length_append, hbox] at hlen
      omega)]
    cases fuel with
    | zero => simp at hfuel
    | succ f =>
      dsimp only
      have hdata : topLevelBytes (b :: bs) ++ suf
          = boxBytes b.1 b.2 ++ (topLevelBytes bs ++ suf) := by
        rw [topLevelBytes_cons]
        simp
      rw [hdata, parseHead_box pre b.1 b.2 (topLevelBytes bs ++ suf) hbf hbl]
      dsimp only
      rw [if_neg hbm]
      have hseek : Reader.seek ⟨pre ++ (boxBytes b.1 b.2 ++ (topLevelBytes bs ++ suf)),
          pre.length + 8⟩ (Head.contentLen ⟨false, 8 + b.2.length, b.1⟩)
          = ⟨(pre ++ boxBytes b.1 b.2) ++ (topLevelBytes bs ++ suf),
            (pre ++ boxBytes b.1 b.2).length⟩ := by
        simp [Reader.seek, Head.contentLen, Head.headLen, hbox]
        omega
      rw [hseek]
      exact ih (pre ++ boxBytes b.1 b.2) suf f (parsed + (8 + b.2.length)) len
        (fun x hx => hb x (by simp [hx]))
        (by simp at hfuel; omega)
        (by
          rw [topLevelBytes_cons] at hlen
          simp only [List.length_append, hbox] at hlen
          omega)

theorem writeTagFindLoop_no_moov (boxes : List (List ℕ × List ℕ)) :
    ∀ (pre suf : List ℕ) (fuel parsed len : ℕ) (moov mdat : Option ℕ),
      (∀ b ∈ boxes, b.1 ≠ moovIdent ∧ b.1.length = 4 ∧ 8 + b.2.length < 2 ^ 32) →
      boxes.length ≤ fuel →
      len = parsed + (topLevelBytes boxes).length →
      ∃ m, writeTagFindLoop fuel ⟨pre ++ (topLevelBytes boxes ++ suf), pre.length⟩
          len parsed moov mdat = .ok (moov, m) := by
  induction boxes with
  | nil =>
    intro pre suf fuel parsed len moov mdat _ _ hlen
    refine ⟨mdat, ?_⟩
    rw [writeTagFindLoop.eq_def]
    rw [if_neg (by simp [topLevelBytes] at hlen; omega)]
  | cons b bs ih =>
    intro pre suf fuel parsed len moov mdat hb hfuel hlen
    obtain ⟨hbm, hbf, hbl⟩ := hb b (by simp)
    have hbox := boxBytes_length b.1 b.2 hbf
    have hlen2 : len = (parsed + (8 + b.2.length)) + (topLevelBytes bs).length := by
      rw [topLevelBytes_cons] at hlen
      simp only [List.length_append, hbox] at hlen
      omega
    rw [writeTagFindLoop.eq_def]
    rw [if_pos (by
      rw [topLevelBytes_cons] at hlen
      simp only [List.length_append, hbox] at hlen
      omega)]
    cases fuel with
    | zero => simp at hfuel
    | succ f =>
      dsimp only
      have hdata : topLevelBytes (b :: bs) ++ suf
          = boxBytes b.1 b.2 ++ (topLevelBytes bs ++ suf) := by
        rw [topLevelBytes_cons]
        simp
      rw [hdata, parseHead_box pre b.1 b.2 (topLevelBytes bs ++ suf) hbf hbl]
      dsimp only
      rw [if_neg hbm]
      by_cases hmd : b.1 = mdatIdent
      · rw [if_pos hmd]
        have hpos : pre.length + (8 + b.2.length) = (pre ++ boxBytes b.1 b.2).length := by
          simp [hbox]
        rw [hpos]
        rw [show (pre ++ (boxBytes b.1 b.2 ++ (topLevelBytes bs ++ suf)))
            = (pre ++ boxBytes b.1 b.2) ++ (topLevelBytes bs ++ suf) by simp]
        exact ih (pre ++ boxBytes b.1 b.2) suf f (parsed + (8 + b.2.length)) len moov
          (some pre.length) (fun x hx => hb x (by simp [hx]))
          (by simp at hfuel; omega) hlen2
      · rw [if_neg hmd]
        have hseek : Reader.seek ⟨pre ++ (boxBytes b.1 b.2 ++ (topLevelBytes bs ++ suf)),
            pre.length + 8⟩ (Head.contentLen ⟨false, 8 + b.2.length, b.1⟩)
            = ⟨(pre ++ boxBytes b.1 b.2) ++ (topLevelBytes bs ++ suf),
              (pre ++ boxBytes b.1 b.2).length⟩ := by
          simp [Reader.seek, Head.contentLen, Head.headLen, hbox]
          omega
        rw [hseek]
        exact ih (pre ++ boxBytes b.1 b.2) suf f (parsed + (8 + b.2.length)) len moov
          mdat (fun x hx => hb x (by simp [hx]))
          (by simp at hfuel; omega) hlen2

theorem ftypParse_ok (brand suf : List ℕ)
    (hb : validBrands.any (fun b => brand.take b.length == b) = true)
    (hlen : 8 + brand.length < 2 ^ 32) :
    ftypParse ⟨boxBytes ftypIdent brand ++ suf, 0⟩ =
      .ok ⟨boxBytes ftypIdent brand ++ suf, 8 + brand.length⟩ := by
  have h0 : boxBytes ftypIdent brand ++ suf
      = ([] : List ℕ) ++ (boxBytes ftypIdent brand ++ suf) := rfl
  rw [h0, show (0 : ℕ) = ([] : List ℕ).length from rfl]
  unfold ftypParse
  rw [parseHead_box [] ftypIdent brand suf rfl hlen]
  dsimp only
  rw [if_neg (by simp)]
  have hcl : Head.contentLen ⟨false, 8 + brand.length, ftypIdent⟩ = brand.length := by
    simp [Head.contentLen, Head.headLen]
  rw [hcl]
  have h2 : ([] : List ℕ) ++ (boxBytes ftypIdent brand ++ suf)
      = (be32 (8 + brand.length) ++ ftypIdent) ++ (brand ++ suf) := by
    simp [boxBytes]
  have h3 : ([] : List ℕ).length + 8 = (be32 (8 + brand.length) ++ ftypIdent).length := by
    simp [be32_length, ftypIdent]
  rw [h2, h3, readBytes_exact_len _ brand suf brand.length rfl]
  dsimp only
  rw [if_pos hb]
  have h4 : (be32 (8 + brand.length) ++ ftypIdent).length + brand.length
      = 8 + brand.length := by
    simp [be32_length, ftypIdent]
  rw [h4]

/-- C6: for every input that begins with a valid `ftyp` atom and whose
top-level boxes contain no `moov`, `read_tag_from` stops with
`AtomNotFound(moov)`, and `write_tag_to` fails with `AtomNotFound(moov)` in
its planning phase, before anything is written. -/
theorem c6_no_moov_atom_not_found (brand : List ℕ) (boxes : List (List ℕ × List ℕ))
    (hb : validBrands.any (fun b => brand.take b.length == b) = true)
    (hlen : 8 + brand.length < 2 ^ 32)
    (hboxes : ∀ b ∈ boxes, b.1 ≠ moovIdent ∧ b.1.length = 4 ∧ 8 + b.2.length < 2 ^ 32) :
    readTagMoovSearch (boxBytes ftypIdent brand ++ topLevelBytes boxes) =
      .error (.atomNotFound moovIdent) ∧
    writeTagPlanMoov (boxBytes ftypIdent brand ++ topLevelBytes boxes) =
      .error (.atomNotFound moovIdent) := by
  have hpre : (boxBytes ftypIdent brand).length = 8 + brand.length :=
    boxBytes_length ftypIdent brand rfl
  have hfp := ftypParse_ok brand (topLevelBytes boxes) hb hlen
  have hge := topLevelBytes_length_ge boxes fun b hbm => (hboxes b hbm).2.1
  constructor
  · unfold readTagMoovSearch
    rw [hfp]
    dsimp only
    rw [show (8 : ℕ) + brand.length = (boxBytes ftypIdent brand).length from hpre.symm,
      show boxBytes ftypIdent brand ++ topLevelBytes boxes
        = boxBytes ftypIdent brand ++ (topLevelBytes boxes ++ []) by simp]
    exact readTagLoop_no_moov boxes (boxBytes ftypIdent brand) [] _ 0 _ hboxes
      (by simp; omega)
      (by simp)
  · unfold writeTagPlanMoov
    rw [hfp]
    dsimp only
    rw [show (8 : ℕ) + brand.length = (boxBytes ftypIdent brand).length from hpre.symm,
      show boxBytes ftypIdent brand ++ topLevelBytes boxes
        = boxBytes ftypIdent brand ++ (topLevelBytes boxes ++ []) by simp]
    obtain ⟨m, hm⟩ := writeTagFindLoop_no_moov boxes (boxBytes ftypIdent brand) []
      ((boxBytes ftypIdent brand ++ (topLevelBytes boxes ++ [])).length + 1) 0
      ((boxBytes ftypIdent brand ++ (topLevelBytes boxes ++ [])).length
        - (boxBytes ftypIdent brand).length)
      none none hboxes
      (by simp; omega)
      (by simp)
    rw [hm]

/-- C6, witness: the theorem evaluated on an `ftyp` with brand `"M4A "`
followed by a single 10-byte `free` box and no `moov`. -/
theorem c6_no_moov_atom_not_found_witness :
    readTagMoovSearch (boxBytes ftypIdent [77, 52, 65, 32]
        ++ topLevelBytes [([102, 114, 101, 101], [1, 2])]) =
      .error (.atomNotFound moovIdent) ∧
    writeTagPlanMoov (boxBytes ftypIdent [77, 52, 65, 32]
        ++ topLevelBytes [([102, 114, 101, 101], [1, 2])]) =
      .error (.atomNotFound moovIdent) :=
  c6_no_moov_atom_not_found [77, 52, 65, 32] [([102, 114, 101, 101], [1, 2])]
    (by decide) (by decide) (by decide)

/-! ## Claim C5: the template-driven child-parsing loop -/

/-- C5, counterexample.  The claim states that cumulative parsed bytes
exceeding the container's content length is a `Parsing` error.  Parsing a
container of content length 10 whose single child head declares length 16
(an unknown `free` child) leaves `parsed_bytes = 16 > 10`, yet
`AtomT::parse_atoms` (src/atom.rs lines 340-382) just exits its loop and
returns `Ok` with no children. -/
theorem c5_overshoot_cex :
    Legacy.parseAtomsGo 9 [] ⟨[0, 0, 0, 16, 102, 114, 101, 101], 0⟩ 10 0 [] =
      .ok ([], ⟨[0, 0, 0, 16, 102, 114, 101, 101], 16⟩) ∧
    Legacy.parseAtomsGo 9 [] ⟨[0, 0, 0, 16, 102, 114, 101, 101], 0⟩ 10 0 [] ≠
      .error .parsing := by
  have h : Legacy.parseAtomsGo 9 [] ⟨[0, 0, 0, 16, 102, 114, 101, 101], 0⟩ 10 0 [] =
      .ok ([], ⟨[0, 0, 0, 16, 102, 114, 101, 101], 16⟩) := by
    rw [Legacy.parseAtomsGo]
    norm_num
    rw [show Legacy.parseHeadOld ⟨[0, 0, 0, 16, 102, 114, 101, 101], 0⟩ =
        .ok ((16, [102, 114, 101, 101]), ⟨[0, 0, 0, 16, 102, 114, 101, 101], 8⟩) from rfl]
    dsimp only
    norm_num [Reader.seek]
    rw [Legacy.parseAtomsGo]
    norm_num
  exact ⟨h, by rw [h]; exact fun hc => Except.noConfusion hc⟩

/-- C5, amended: for every container parsed by the loop, children with
unknown identifiers are skipped by seeking forward `content_len`
(`atom_length - 8`) bytes, and the loop terminates as soon as the cumulative
parsed bytes reach or exceed the container's content length; exceeding it is
not detected: no `Parsing` error is raised and the parse returns `Ok`. -/
theorem c5_parse_atoms_loop_amended (fuel length parsedBytes alen : ℕ)
    (atoms : List Legacy.AtomT) (r r2 : Reader) (aident : Legacy.Ident)
    (acc : List Legacy.Atom) :
    (length ≤ parsedBytes →
      Legacy.parseAtomsGo fuel atoms r length parsedBytes acc = .ok (acc, r)) ∧
    (parsedBytes < length →
      Legacy.parseHeadOld r = .ok ((alen, aident), r2) →
      atoms.find? (fun a => a.ident == aident) = none →
      8 < alen →
      Legacy.parseAtomsGo (fuel + 1) atoms r length parsedBytes acc =
        Legacy.parseAtomsGo fuel atoms (r2.seek (alen - 8)) length
          (parsedBytes + alen) acc) := by
  constructor
  · intro hle
    rw [Legacy.parseAtomsGo.eq_def]
    rw [if_neg (by omega)]
    dsimp only
    rw [if_neg (by omega)]
  · intro hlt hhead hfind halen
    conv_lhs => rw [Legacy.parseAtomsGo.eq_def]
    rw [if_pos hlt]
    dsimp only
    rw [hhead]
    dsimp only
    rw [hfind]
    dsimp only
    rw [if_pos halen]

/-- C5, witness: the exit case at `parsed_bytes = 7 ≥ length = 5`, and one
skip step over an unknown 16-byte child inside a 40-byte container. -/
theorem c5_parse_atoms_loop_amended_witness :
    Legacy.parseAtomsGo 3 [] ⟨[], 4⟩ 5 7 [] = .ok ([], ⟨[], 4⟩) ∧
    Legacy.parseAtomsGo 1 [] ⟨[0, 0, 0, 16, 102, 114, 101, 101], 0⟩ 40 0 [] =
      Legacy.parseAtomsGo 0 []
        (Reader.seek ⟨[0, 0, 0, 16, 102, 114, 101, 101], 8⟩ (16 - 8)) 40 (0 + 16) [] :=
  ⟨(c5_parse_atoms_loop_amended 3 5 7 0 [] ⟨[], 4⟩ ⟨[], 4⟩ [] []).1 (by decide),
   (c5_parse_atoms_loop_amended 0 40 0 16 [] ⟨[0, 0, 0, 16, 102, 114, 101, 101], 0⟩
      ⟨[0, 0, 0, 16, 102, 114, 101, 101], 8⟩ [102, 114, 101, 101] []).2
    (by decide) rfl rfl (by decide)⟩

/-! ## Claim C10: `Content::take_data` always leaves `Empty` behind -/

/-- C10: `Content::take_data` always replaces the content with
`Content::Empty`; on a `Content::Atoms` value it discards the children and
returns `None`; it returns `Some(data)` exactly when the content was
`RawData` or `TypedData` holding that data. -/
theorem c10_take_data (c : Legacy.Content) :
    (Legacy.Content.take_data c).2 = Legacy.Content.empty ∧
    (∀ l, Legacy.Content.take_data (Legacy.Content.atoms l) =
      (none, Legacy.Content.empty)) ∧
    (∀ d, (Legacy.Content.take_data c).1 = some d ↔
      (c = Legacy.Content.rawData d ∨ c = Legacy.Content.typedData d)) := by
  refine ⟨?_, fun l => rfl, fun d => ?_⟩
  · cases c <;> rfl
  · cases c <;> simp [Legacy.Content.take_data]

/-! ## Claim C8: the generated flag accessors -/

/-- C8: a generated flag getter returns `true` exactly when the first data
entry under the flag's identifier is a `BeSigned` or `Reserved` value whose
first byte is 1 (so an absent item, an empty payload, another data variant,
or a different first byte all yield `false`); the generated setter stores
`BeSigned([1])` under the identifier, making the getter return `true`; the
generated remover deletes every entry under the identifier. -/
theorem c8_flag_accessors (t : Tag) (i : List ℕ) :
    (flagValue t i = true ↔ ∃ v,
      ((t.dataEntries i).head? = some (Data.reserved v) ∨
       (t.dataEntries i).head? = some (Data.beSigned v)) ∧ v.head? = some 1) ∧
    flagValue (setFlag t i) i = true ∧
    (removeFlag t i).dataEntries i = [] := by
  have hfb : ∀ v : List ℕ, flagFirstByte v = true ↔ v.head? = some 1 := by
    intro v
    cases v with
    | nil => simp [flagFirstByte]
    | cons b bs => simp [flagFirstByte]
  refine ⟨?_, ?_, ?_⟩
  · unfold flagValue
    cases h : (t.dataEntries i).head? with
    | none => simp
    | some d =>
      cases d <;> simp [hfb]
  · have hset : (setFlag t i).dataEntries i = [Data.beSigned [1]] := by
      unfold setFlag Tag.setData Tag.dataEntries
      simp only [List.filter_append, List.map_append]
      rw [List.filter_filter]
      have h1 : (t.items.filter fun p => (p.1 == i) && (p.1 != i)) = [] := by
        refine List.filter_eq_nil_iff.mpr fun p _ => ?_
        simp [bne]
      rw [h1]
      simp
    unfold flagValue
    rw [hset]
    simp [flagFirstByte]
  · unfold removeFlag Tag.removeData Tag.dataEntries
    rw [List.filter_filter]
    have h1 : (t.items.filter fun p => (p.1 == i) && (p.1 != i)) = [] := by
      refine List.filter_eq_nil_iff.mpr fun p _ => ?_
      simp [bne]
    rw [h1]
    rfl

end Mp4ameta
